import Mathlib

set_option maxRecDepth 100000
set_option maxHeartbeats 4000000

namespace PCZ2

/-!
Verification of the PCZ2 block-parallel compressor core.

The definitions below are a shallow embedding of the Go sources:
bytes are `Nat` values (machine truncation is written out explicitly),
byte buffers are `List Nat`, fallible code returns `Option` or `Except`,
and loops are written as fuel-indexed or structural recursions whose fuel
is always sufficient (proved below where a claim needs it).  An access
that could fall outside a slice in the source is modelled with `List.get?`
and surfaces as `none`.
-/

/-- Sliding-window bound for LZ match offsets (`lzWindowSize` in lz.go). -/
def lzWindowSize : Nat := 65535

/-- Minimum match length (`lzMinMatch` in lz.go). -/
def lzMinMatch : Nat := 4

/-- Maximum match length, storable in one byte (`lzMaxMatch` in lz.go). -/
def lzMaxMatch : Nat := 255

/-- Number of bits of a hash-table index (`hashBits` in lz.go). -/
def hashBits : Nat := 14

/-- Number of slots of the hash table (`hashSize` in lz.go). -/
def hashSize : Nat := 2 ^ hashBits

/-- Truncation of a machine integer to one byte, Go's `byte(x)`. -/
def toByte (x : Nat) : Nat := x % 256

/-- Hash of four consecutive input bytes, exactly as in `lzCompressTokens`:
a 32-bit xor mix of the shifted bytes, multiplied by `0x1e35a7bd` in
32-bit arithmetic, then shifted down to `hashBits` bits. -/
def lzHash (b0 b1 b2 b3 : Nat) : Nat :=
  let h := ((b0 <<< 24) % 2 ^ 32) ^^^ ((b1 <<< 16) % 2 ^ 32) ^^^
           ((b2 <<< 8) % 2 ^ 32) ^^^ (b3 % 2 ^ 32)
  ((h * 0x1e35a7bd) % 2 ^ 32) >>> (32 - hashBits)

/-- Greedy match extension of `lzCompressTokens`: starting from `matchLen`,
extend while the next positions are inside the input, `matchLen` is below
`lzMaxMatch`, and the bytes at `candidate + matchLen` and `i + matchLen`
agree.  The fuel argument only bounds the recursion; `lzMaxMatch` fuel is
always enough because every step needs `matchLen < lzMaxMatch`. -/
def extendMatch (input : List Nat) (candidate i : Nat) : Nat → Nat → Nat
  | 0, matchLen => matchLen
  | fuel + 1, matchLen =>
    if i + matchLen < input.length ∧ candidate + matchLen < input.length ∧
       matchLen < lzMaxMatch ∧
       input.getD (candidate + matchLen) 0 = input.getD (i + matchLen) 0 then
      extendMatch input candidate i fuel (matchLen + 1)
    else matchLen

/-- Short-circuit comparison of the four bytes at `candidate` with the four
bytes already fetched at the current position, as in the `&&` chain of
`lzCompressTokens`; `none` models an access outside the input slice. -/
def bytesMatch4 (input : List Nat) (candidate : Nat) (b0 b1 b2 b3 : Nat) :
    Option Bool :=
  match input.get? candidate with
  | none => none
  | some d0 =>
    if d0 = b0 then
      match input.get? (candidate + 1) with
      | none => none
      | some d1 =>
        if d1 = b1 then
          match input.get? (candidate + 2) with
          | none => none
          | some d2 =>
            if d2 = b2 then
              match input.get? (candidate + 3) with
              | none => none
              | some d3 => some (if d3 = b3 then true else false)
            else some false
        else some false
    else some false

/-- Main loop of `lzCompressTokens`.  The hash table is the function
`table`, mapping slot indices to the last position stored there (`none`
is the `-1` initial state).  `none` as a result models an out-of-range
slice access, an out-of-range hash slot, or fuel exhaustion; the totality
theorem below shows none of these occur with the fuel supplied by
`lzCompressTokens`. -/
def lzCompressLoop (input : List Nat) :
    Nat → (Nat → Option Nat) → Nat → List Nat → Option (List Nat)
  | 0, _, _, _ => none
  | fuel + 1, table, i, out =>
    if i < input.length then
      if input.length < i + lzMinMatch then
        match input.get? i with
        | none => none
        | some b => lzCompressLoop input fuel table (i + 1) (out ++ [0x00, b])
      else
        match input.get? i, input.get? (i + 1), input.get? (i + 2), input.get? (i + 3) with
        | some b0, some b1, some b2, some b3 =>
          let h := lzHash b0 b1 b2 b3
          if h < hashSize then
            let table' := fun k => if k = h then some i else table k
            match table h with
            | some candidate =>
              if i - candidate < lzWindowSize ∧ 0 < i - candidate then
                match bytesMatch4 input candidate b0 b1 b2 b3 with
                | none => none
                | some true =>
                  let matchLen := extendMatch input candidate i lzMaxMatch lzMinMatch
                  let offset := i - candidate
                  lzCompressLoop input fuel table' (i + matchLen)
                    (out ++ [0x01, toByte (offset &&& 0xFF), toByte (offset >>> 8),
                             toByte matchLen])
                | some false =>
                  lzCompressLoop input fuel table' (i + 1) (out ++ [0x00, b0])
              else
                lzCompressLoop input fuel table' (i + 1) (out ++ [0x00, b0])
            | none =>
              lzCompressLoop input fuel table' (i + 1) (out ++ [0x00, b0])
          else none
        | _, _, _, _ => none
    else some out

/-- Hash-based LZ77 compression, `lzCompressTokens` in lz.go.  The empty
input returns the empty token stream (`nil` in the source); otherwise the
scan starts at position 0 with an empty table.  One unit of fuel is spent
per loop iteration and the position strictly increases, so
`input.length + 1` fuel always suffices. -/
def lzCompressTokens (input : List Nat) : Option (List Nat) :=
  if input.length = 0 then some []
  else lzCompressLoop input (input.length + 1) (fun _ => none) 0 []

/-- Errors surfaced by `lzDecompressTokens` in lz.go. -/
inductive LZError where
  | truncatedLiteral : LZError
  | truncatedMatch : LZError
  | invalidMatchOffset (offset outLen : Nat) : LZError
  | invalidTokenFlag (flag : Nat) : LZError
  | sizeMismatch (got : Nat) (expected : Int) : LZError
deriving DecidableEq

/-- Byte-wise copy loop of the decoder: append `todo` bytes, the next one
read from position `start + j` of the growing output, exactly as the
`for j` loop over `out = append(out, out[start+j])` in the source. -/
def lzCopyLoop (start : Nat) : Nat → Nat → List Nat → List Nat
  | 0, _, out => out
  | todo + 1, j, out => lzCopyLoop start todo (j + 1) (out ++ [out.getD (start + j) 0])

/-- Token-consuming loop of `lzDecompressTokens`: dispatch on the flag
byte, append a literal byte or a byte-wise copied match, or fail.  The
flag dispatch of the source's `switch` and its truncation checks are
written as one flat pattern match. -/
def lzDecodeLoop : List Nat → List Nat → Except LZError (List Nat)
  | [], out => Except.ok out
  | 0x00 :: b :: rest2, out => lzDecodeLoop rest2 (out ++ [b])
  | [0x00], _ => Except.error LZError.truncatedLiteral
  | 0x01 :: a :: b :: l :: rest2, out =>
    let offset := a ||| (b <<< 8)
    let length := l
    if offset ≤ 0 ∨ out.length < offset then
      Except.error (LZError.invalidMatchOffset offset out.length)
    else
      lzDecodeLoop rest2 (lzCopyLoop (out.length - offset) length 0 out)
  | 0x01 :: _, _ => Except.error LZError.truncatedMatch
  | flag :: _, _ => Except.error (LZError.invalidTokenFlag flag)

/-- LZ77 token decompression, `lzDecompressTokens` in lz.go.  The expected
size is a signed machine integer in the source, so it is an `Int` here. -/
def lzDecompressTokens (tokens : List Nat) (expectedSize : Int) :
    Except LZError (List Nat) :=
  if tokens.length = 0 ∧ expectedSize = 0 then Except.ok []
  else
    match lzDecodeLoop tokens [] with
    | Except.error e => Except.error e
    | Except.ok out =>
      if (out.length : Int) ≠ expectedSize then
        Except.error (LZError.sizeMismatch out.length expectedSize)
      else Except.ok out

/-- Tokens of the LZ stream, for stating properties of the emitted
stream: a one-byte literal or an (offset, length) match. -/
inductive LZTok where
  | lit (b : Nat) : LZTok
  | mat (offset length : Nat) : LZTok
deriving DecidableEq

/-- Parse a byte stream into the token shapes of §3 of the format
(`0x00 b` literal, `0x01 o_lo o_hi L` match, offset little-endian);
`none` on a truncated or unknown token. -/
def tokenList : List Nat → Option (List LZTok)
  | [] => some []
  | 0x00 :: b :: rest2 => (tokenList rest2).map (fun ts => LZTok.lit b :: ts)
  | 0x01 :: a :: b :: l :: rest2 =>
    (tokenList rest2).map (fun ts => LZTok.mat (a ||| (b <<< 8)) l :: ts)
  | _ => none

/-- Per-block encoding shared by the three compress drivers (sequential.go,
part of `BSPCompressFile` and `WorkStealingCompressFile`): LZ tokens behind
a `0x00` tag when `len(tokens)+1 < len(buf)+1`, otherwise the raw block
bytes behind `0xFF`. -/
def encodeBlock (buf : List Nat) : Option (List Nat) :=
  match lzCompressTokens buf with
  | none => none
  | some tokens =>
    if buf.length + 1 ≤ tokens.length + 1 then some (0xFF :: buf)
    else some (0x00 :: tokens)

/-! The compressor's hash-table invariant and match-token well-formedness. -/

/-- Every position stored in the hash table was stored with at least
`lzMinMatch` bytes of input after it, and lies strictly before the scan
position. -/
def tableOK (input : List Nat) (i : Nat) (table : Nat → Option Nat) : Prop :=
  ∀ k c, table k = some c → c + lzMinMatch ≤ input.length ∧ c < i

/-- Shape of a well-formed emitted token: matches carry an offset inside
the window and a length between `lzMinMatch` and `lzMaxMatch`. -/
def matchTokOK : LZTok → Prop
  | LZTok.lit _ => True
  | LZTok.mat off len => 1 ≤ off ∧ off < lzWindowSize ∧ lzMinMatch ≤ len ∧ len ≤ lzMaxMatch

/-! Container header codec (format.go). -/

/-- Magic bytes of the container: 'P' 'C' 'Z' '2'. -/
def magicBytes : List Nat := [0x50, 0x43, 0x5A, 0x32]

/-- File header of the PCZ2 container (format.go).  Go's `string`
filename is represented by its bytes; the unsigned integer fields are
`Nat` values whose machine-type bounds appear as hypotheses in the
theorems that need them. -/
structure FileHeader where
  Filename : List Nat
  OriginalSize : Nat
  BlockSize : Nat
  NumBlocks : Nat
  BlockCompSizes : List Nat
deriving DecidableEq

/-- Little-endian encoding of `v` in `k` bytes, as `binary.Write` emits
an unsigned `k`-byte integer. -/
def leBytes : Nat → Nat → List Nat
  | 0, _ => []
  | k + 1, v => (v % 256) :: leBytes k (v / 256)

/-- Little-endian decoding of a byte list, as `binary.Read` assembles an
unsigned integer. -/
def deBytes : List Nat → Nat
  | [] => 0
  | b :: rest => b + 256 * deBytes rest

/-- WriteHeader (format.go): emits magic, name length (u16), original
size (u64), name bytes, block size (u32), block count (u64) and then the
size table (one u64 per block); it fails when the name exceeds 0xFFFF
bytes or when the size-table length disagrees with `NumBlocks`.  The
model returns the full byte sequence or the error. -/
def WriteHeader (h : FileHeader) : Except String (List Nat) :=
  if 0xFFFF < h.Filename.length then Except.error "filename too long"
  else if h.BlockCompSizes.length ≠ h.NumBlocks then Except.error "block count mismatch"
  else Except.ok (magicBytes ++ leBytes 2 h.Filename.length ++
    leBytes 8 h.OriginalSize ++ h.Filename ++ leBytes 4 h.BlockSize ++
    leBytes 8 h.NumBlocks ++ (h.BlockCompSizes.map (leBytes 8)).flatten)

/-- A read of exactly `n` bytes from the stream (io.ReadFull): a short
stream is an error. -/
def readN (n : Nat) (s : List Nat) : Except String (List Nat × List Nat) :=
  if s.length < n then Except.error "short read"
  else Except.ok (s.take n, s.drop n)

/-- Read `k` little-endian u64 values (the size-table loop of
ReadHeader). -/
def readSizes : Nat → List Nat → Except String (List Nat × List Nat)
  | 0, s => Except.ok ([], s)
  | k + 1, s =>
    match readN 8 s with
    | Except.error e => Except.error e
    | Except.ok (b, s1) =>
      match readSizes k s1 with
      | Except.error e => Except.error e
      | Except.ok (rest, s2) => Except.ok (deBytes b :: rest, s2)

/-- ReadHeader (format.go): reads the fields in writing order, validates
the magic, and returns the populated header together with the rest of the
stream. -/
def ReadHeader (s : List Nat) : Except String (FileHeader × List Nat) :=
  match readN 4 s with
  | Except.error e => Except.error e
  | Except.ok (m, s1) =>
    if m ≠ magicBytes then Except.error "invalid magic"
    else match readN 2 s1 with
    | Except.error e => Except.error e
    | Except.ok (nl, s2) =>
      match readN 8 s2 with
      | Except.error e => Except.error e
      | Except.ok (os, s3) =>
        match readN (deBytes nl) s3 with
        | Except.error e => Except.error e
        | Except.ok (name, s4) =>
          match readN 4 s4 with
          | Except.error e => Except.error e
          | Except.ok (bs, s5) =>
            match readN 8 s5 with
            | Except.error e => Except.error e
            | Except.ok (nb, s6) =>
              match readSizes (deBytes nb) s6 with
              | Except.error e => Except.error e
              | Except.ok (tbl, s7) =>
                Except.ok ({ Filename := name, OriginalSize := deBytes os,
                             BlockSize := deBytes bs, NumBlocks := deBytes nb,
                             BlockCompSizes := tbl }, s7)

/-! Static partitioning of the BSP drivers (BSPCompressFile and
BSPDecompressFile). -/

/-- Effective worker count of the BSP drivers: a requested count at most
zero becomes 1, and the count is then capped at the number of blocks. -/
def bspThreads (threads : Int) (numBlocks : Nat) : Nat :=
  let t : Int := if threads ≤ 0 then 1 else threads
  if t > (numBlocks : Int) then numBlocks else t.toNat

/-- Chunk size of the BSP partition: `numBlocks / t`, incremented when
the division leaves a remainder. -/
def bspChunkSize (numBlocks t : Nat) : Nat :=
  if numBlocks % t ≠ 0 then numBlocks / t + 1 else numBlocks / t

/-- Index range `(start, end)` owned by worker `id` in the BSP drivers:
`start = id * chunkSize`, `end = start + chunkSize`, with the
out-of-range reset to `(0, 0)` and the upper clamp to `numBlocks`, in the
order of the source. -/
def bspRange (numBlocks chunkSize id : Nat) : Nat × Nat :=
  let start := id * chunkSize
  let e := start + chunkSize
  let p := if start ≥ numBlocks then ((0 : Nat), (0 : Nat)) else (start, e)
  (p.1, if p.2 > numBlocks then numBlocks else p.2)

/-! Decompression drivers.  Each driver is modelled as a pure function
from the parsed header and the byte stream that follows the header to the
decompressed output or an error.  File creation and I/O errors are
outside the model; the error strings name the failure the source
reports. -/

/-- Expected decoded size of block `idx` in the sequential driver, in Go
`int` arithmetic: full blocks before the last, the remainder for the
last. -/
def seqBlockExpectedSize (blockSize numBlocks originalSize idx : Nat) : Int :=
  if idx < numBlocks - 1 then (blockSize : Int)
  else (originalSize : Int) - (blockSize : Int) * ((numBlocks : Int) - 1)

/-- Expected decoded size of block `idx` in the BSP and work-stealing
drivers (same value, written as the source writes it). -/
def blockExpectedSize (blockSize numBlocks originalSize idx : Nat) : Int :=
  if idx = numBlocks - 1 then
    (originalSize : Int) - (blockSize : Int) * ((numBlocks : Int) - 1)
  else (blockSize : Int)

/-- Per-block loop of SequentialDecompressFile: read the next
`BlockCompSizes[blockIndex]` bytes, dispatch on the mode tag, and append
the decoded bytes; `rem` counts the remaining blocks. -/
def seqDecompressLoop (h : FileHeader) :
    Nat → Nat → List Nat → List Nat → Except String (List Nat)
  | 0, _, _, acc => Except.ok acc
  | rem + 1, blockIndex, stream, acc =>
    let compSize := h.BlockCompSizes.getD blockIndex 0
    if compSize = 0 then Except.error "invalid compressed size"
    else
      match readN compSize stream with
      | Except.error _ => Except.error "read compressed block"
      | Except.ok (compBuf, stream2) =>
        match compBuf with
        | [] => Except.error "empty block"
        | mode :: data =>
          if mode = 0xFF then
            if (data.length : Int) ≠
                seqBlockExpectedSize h.BlockSize h.NumBlocks h.OriginalSize blockIndex then
              Except.error "raw block size mismatch"
            else seqDecompressLoop h rem (blockIndex + 1) stream2 (acc ++ data)
          else if mode = 0x00 then
            match lzDecompressTokens data
                (seqBlockExpectedSize h.BlockSize h.NumBlocks h.OriginalSize blockIndex) with
            | Except.error _ => Except.error "decompress block"
            | Except.ok dec => seqDecompressLoop h rem (blockIndex + 1) stream2 (acc ++ dec)
          else Except.error "unknown block mode"

/-- SequentialDecompressFile: an original size of zero or a block count
of zero is treated as an empty file before any block is read. -/
def SequentialDecompressBytes (h : FileHeader) (stream : List Nat) :
    Except String (List Nat) :=
  if h.OriginalSize = 0 ∨ h.NumBlocks = 0 then Except.ok []
  else seqDecompressLoop h h.NumBlocks 0 stream []

/-- Offsets of the blocks inside the compressed payload: the prefix sums
of the size table, starting at `cur`. -/
def prefixSumsFrom (cur : Nat) : List Nat → List Nat
  | [] => []
  | s :: rest => cur :: prefixSumsFrom (cur + s) rest

/-- Overwrite of `dst` at position `pos` with `src`, as Go's
`copy(dst[pos : pos + len(src)], src)` behaves when the window fits. -/
def listCopyAt (dst : List Nat) (pos : Nat) (src : List Nat) : List Nat :=
  dst.take pos ++ src ++ dst.drop (pos + src.length)

/-- One block of the parallel decompressors: slice the block out of the
payload via its offset and size, dispatch on the mode tag, and write the
decoded bytes into the block's region of the output buffer. -/
def decodeBlockInto (h : FileHeader) (compData offs : List Nat) (outBuf : List Nat)
    (idx : Nat) : Except String (List Nat) :=
  let comp := (compData.drop (offs.getD idx 0)).take (h.BlockCompSizes.getD idx 0)
  match comp with
  | [] => Except.error "empty compressed block"
  | mode :: data =>
    if mode = 0xFF then
      if (data.length : Int) ≠
          blockExpectedSize h.BlockSize h.NumBlocks h.OriginalSize idx then
        Except.error "raw block size mismatch"
      else Except.ok (listCopyAt outBuf (idx * h.BlockSize) data)
    else if mode = 0x00 then
      match lzDecompressTokens data
          (blockExpectedSize h.BlockSize h.NumBlocks h.OriginalSize idx) with
      | Except.error _ => Except.error "decompress block"
      | Except.ok dec => Except.ok (listCopyAt outBuf (idx * h.BlockSize) dec)
    else Except.error "unknown block mode"

/-- Decode `rem` consecutive blocks starting at `idx` into the output
buffer, stopping at the first error — the per-worker loop of the parallel
decompressors (the first captured error aborts the remaining work). -/
def decodeBlocksLoop (h : FileHeader) (compData offs : List Nat) :
    Nat → Nat → List Nat → Except String (List Nat)
  | 0, _, outBuf => Except.ok outBuf
  | rem + 1, idx, outBuf =>
    match decodeBlockInto h compData offs outBuf idx with
    | Except.error e => Except.error e
    | Except.ok outBuf2 => decodeBlocksLoop h compData offs rem (idx + 1) outBuf2

/-- The BSP workers in worker-id order, each owning its contiguous
range.  The ranges are disjoint (claim C8), so executing the workers in
order computes the same output buffer as the concurrent run. -/
def bspAllWorkers (h : FileHeader) (compData offs : List Nat) (numBlocks chunk : Nat) :
    Nat → Nat → List Nat → Except String (List Nat)
  | 0, _, outBuf => Except.ok outBuf
  | rem + 1, id, outBuf =>
    match decodeBlocksLoop h compData offs
        ((bspRange numBlocks chunk id).2 - (bspRange numBlocks chunk id).1)
        (bspRange numBlocks chunk id).1 outBuf with
    | Except.error e => Except.error e
    | Except.ok outBuf2 => bspAllWorkers h compData offs numBlocks chunk rem (id + 1) outBuf2

/-- BSPDecompressFile: empty-file guard, payload read of the summed size
table, prefix-sum offsets, then the partitioned workers. -/
def BSPDecompressBytes (threads : Int) (h : FileHeader) (stream : List Nat) :
    Except String (List Nat) :=
  if h.OriginalSize = 0 ∨ h.NumBlocks = 0 then Except.ok []
  else
    match readN h.BlockCompSizes.sum stream with
    | Except.error _ => Except.error "read compressed payload"
    | Except.ok (compData, _) =>
      bspAllWorkers h compData (prefixSumsFrom 0 h.BlockCompSizes) h.NumBlocks
        (bspChunkSize h.NumBlocks (bspThreads threads h.NumBlocks))
        (bspThreads threads h.NumBlocks) 0 (List.replicate h.OriginalSize 0)

/-- WorkStealingDecompressFile: the same guard, payload read and
per-block computation as the BSP path; which worker decodes which block
is scheduling nondeterminism, and every block writes only its own region,
so the model fixes the schedule to block-index order. -/
def WorkStealingDecompressBytes (_threads : Int) (h : FileHeader) (stream : List Nat) :
    Except String (List Nat) :=
  if h.OriginalSize = 0 ∨ h.NumBlocks = 0 then Except.ok []
  else
    match readN h.BlockCompSizes.sum stream with
    | Except.error _ => Except.error "read compressed payload"
    | Except.ok (compData, _) =>
      decodeBlocksLoop h compData (prefixSumsFrom 0 h.BlockCompSizes)
        h.NumBlocks 0 (List.replicate h.OriginalSize 0)

/-! Work-stealing deque (wsdeque.go), modelled at operation granularity:
each operation runs atomically, so a run of the model is the special
interleaving in which the fine-grained atomic steps of one call never
overlap another call.  The genuinely concurrent interleavings of the
lock-free source are outside this sequential model. -/

/-- State of the Chase–Lev deque: circular task buffer, index mask, and
the two counters. -/
structure WSDeque where
  tasks : List Nat
  mask : Nat
  top : Nat
  bottom : Nat
deriving DecidableEq

/-- PushBottom (owner): write the task at `bottom &&& mask`, then publish
`bottom + 1`. -/
def pushBottom (d : WSDeque) (task : Nat) : WSDeque :=
  { d with tasks := d.tasks.set (d.bottom &&& d.mask) task, bottom := d.bottom + 1 }

/-- PopBottom (owner): the source first stores `bottom - 1`, reads `top`,
and on the empty and last-item paths stores `bottom` back; in the atomic
model only the final state of each path is visible, and the last-item CAS
succeeds because no thief intervenes. -/
def popBottom (d : WSDeque) : WSDeque × Option Nat :=
  if d.bottom = 0 then (d, none)
  else
    let b := d.bottom - 1
    let t := d.top
    if t ≤ b then
      let task := d.tasks.getD (b &&& d.mask) 0
      if t = b then ({ d with top := t + 1, bottom := b + 1 }, some task)
      else ({ d with bottom := b }, some task)
    else ({ d with bottom := b + 1 }, none)

/-- Steal (thief): read `top` and `bottom`, give up on an empty deque,
otherwise take the task at `top &&& mask`; the CAS succeeds in the
atomic model. -/
def steal (d : WSDeque) : WSDeque × Option Nat :=
  if d.top ≥ d.bottom then (d, none)
  else ({ d with top := d.top + 1 }, some (d.tasks.getD (d.top &&& d.mask) 0))

/-! Helper lemmas about the byte-level primitives. -/

theorem toByte_eq_of_lt {x : Nat} (h : x < 256) : toByte x = x :=
  Nat.mod_eq_of_lt h

/-- The hash value always fits the table: it is a 32-bit value shifted
right by 18 bits, hence below `2 ^ 14 = hashSize`. -/
theorem lzHash_lt (b0 b1 b2 b3 : Nat) : lzHash b0 b1 b2 b3 < hashSize := by
  unfold lzHash hashSize hashBits
  have h1 : (((((b0 <<< 24) % 2 ^ 32) ^^^ ((b1 <<< 16) % 2 ^ 32) ^^^
      ((b2 <<< 8) % 2 ^ 32) ^^^ (b3 % 2 ^ 32)) * 0x1e35a7bd) % 2 ^ 32) < 2 ^ 32 :=
    Nat.mod_lt _ (by norm_num)
  rw [Nat.shiftRight_eq_div_pow]
  omega

/-- Recombining the low byte and the high byte of a 16-bit offset, the way
the decoder does, gives back the offset. -/
theorem offsetBytes_recombine {off : Nat} (h : off < 2 ^ 16) :
    toByte (off &&& 0xFF) ||| (toByte (off >>> 8) <<< 8) = off := by
  have hlow : off &&& 0xFF < 256 := by
    have := Nat.and_le_right (n := off) (m := 0xFF)
    omega
  have hhigh : off >>> 8 < 256 := by
    rw [Nat.shiftRight_eq_div_pow]
    omega
  rw [toByte_eq_of_lt hlow, toByte_eq_of_lt hhigh]
  apply Nat.eq_of_testBit_eq
  intro i
  rw [Nat.testBit_lor, show (0xFF : Nat) = 2 ^ 8 - 1 from rfl,
      Nat.and_pow_two_sub_one_eq_mod, Nat.testBit_mod_two_pow, Nat.testBit_shiftLeft,
      Nat.testBit_shiftRight]
  by_cases hi : i < 8
  · simp [hi, Nat.not_le.mpr hi]
  · have : 8 + (i - 8) = i := by omega
    simp [hi, Nat.not_lt.mpr (Nat.le_of_not_lt hi), Nat.le_of_not_lt hi, this]

/-! Properties of `extendMatch`. -/

theorem extendMatch_ge (input : List Nat) (c i : Nat) :
    ∀ fuel ml, ml ≤ extendMatch input c i fuel ml := by
  intro fuel
  induction fuel with
  | zero => intro ml; simp [extendMatch]
  | succ n ih =>
    intro ml
    unfold extendMatch
    split
    · exact Nat.le_trans (Nat.le_succ ml) (ih (ml + 1))
    · exact Nat.le_refl ml

theorem extendMatch_le (input : List Nat) (c i : Nat) :
    ∀ fuel ml, ml ≤ lzMaxMatch → extendMatch input c i fuel ml ≤ lzMaxMatch := by
  intro fuel
  induction fuel with
  | zero => intro ml h; simpa [extendMatch] using h
  | succ n ih =>
    intro ml h
    unfold extendMatch
    split
    · rename_i hc
      exact ih (ml + 1) (by omega)
    · exact h

theorem extendMatch_add_le (input : List Nat) (c i : Nat) :
    ∀ fuel ml, i + ml ≤ input.length →
      i + extendMatch input c i fuel ml ≤ input.length := by
  intro fuel
  induction fuel with
  | zero => intro ml h; simpa [extendMatch] using h
  | succ n ih =>
    intro ml h
    unfold extendMatch
    split
    · rename_i hc
      exact ih (ml + 1) (by omega)
    · exact h

theorem extendMatch_cand_le (input : List Nat) (c i : Nat) :
    ∀ fuel ml, c + ml ≤ input.length →
      c + extendMatch input c i fuel ml ≤ input.length := by
  intro fuel
  induction fuel with
  | zero => intro ml h; simpa [extendMatch] using h
  | succ n ih =>
    intro ml h
    unfold extendMatch
    split
    · rename_i hc
      exact ih (ml + 1) (by omega)
    · exact h

/-- Every position below the extended match length carries equal bytes at
the candidate and at the current position, provided the positions below
the starting length already do. -/
theorem extendMatch_bytes (input : List Nat) (c i : Nat) :
    ∀ fuel ml,
      (∀ j, j < ml → input.getD (c + j) 0 = input.getD (i + j) 0) →
      ∀ j, j < extendMatch input c i fuel ml →
        input.getD (c + j) 0 = input.getD (i + j) 0 := by
  intro fuel
  induction fuel with
  | zero => intro ml h; simpa [extendMatch] using h
  | succ n ih =>
    intro ml h
    unfold extendMatch
    split
    · rename_i hc
      refine ih (ml + 1) ?_
      intro j hj
      rcases Nat.lt_or_ge j ml with hlt | hge
      · exact h j hlt
      · have : j = ml := by omega
        subst this
        exact hc.2.2.2
    · exact h

/-! Properties of the decoder's byte-wise copy. -/

theorem lzCopyLoop_length (start : Nat) :
    ∀ todo j out, (lzCopyLoop start todo j out).length = out.length + todo := by
  intro todo
  induction todo with
  | zero => intro j out; simp [lzCopyLoop]
  | succ n ih =>
    intro j out
    unfold lzCopyLoop
    rw [ih]
    simp
    omega

/-- Copying `todo` bytes starting from source position `c + j` onto the
prefix `input.take (i + j)` extends the prefix to `input.take (i + j + todo)`,
provided the source bytes below the match agree with the target bytes.
This is the key fact behind self-overlapping matches: the source index
`c + k` always stays below the current output length `i + k`. -/
theorem lzCopyLoop_take (input : List Nat) (c i : Nat) (hci : c < i) :
    ∀ todo j, i + j + todo ≤ input.length →
      (∀ k, k < j + todo → input.getD (c + k) 0 = input.getD (i + k) 0) →
      lzCopyLoop c todo j (input.take (i + j)) = input.take (i + j + todo) := by
  intro todo
  induction todo with
  | zero => intro j _ _; rfl
  | succ n ih =>
    intro j hlen heq
    unfold lzCopyLoop
    have hij : i + j < input.length := by omega
    have hcj : c + j < i + j := by omega
    have hread : (input.take (i + j)).getD (c + j) 0 = input.getD (i + j) 0 := by
      rw [List.getD_eq_getElem?_getD, List.getElem?_take_of_lt hcj,
          ← List.getD_eq_getElem?_getD]
      exact heq j (by omega)
    have hsnoc : input.take (i + j) ++ [input.getD (i + j) 0] = input.take (i + j + 1) := by
      rw [List.take_succ, List.getD_eq_getElem?_getD, List.getElem?_eq_getElem hij]
      rfl
    rw [hread, hsnoc]
    have := ih (j + 1) (by omega) (by intro k hk; exact heq k (by omega))
    rw [show i + (j + 1) = i + j + 1 by omega] at this
    rw [this]
    congr 1
    omega

/-! Compositionality of the decoder loop and of the token parser. -/

theorem lzDecodeLoop_append_aux : ∀ (n : Nat) (t1 : List Nat), t1.length ≤ n →
    ∀ t2 out out1, lzDecodeLoop t1 out = Except.ok out1 →
    lzDecodeLoop (t1 ++ t2) out = lzDecodeLoop t2 out1 := by
  intro n
  induction n with
  | zero =>
    intro t1 ht t2 out out1 h
    have h0 : t1 = [] := List.eq_nil_of_length_eq_zero (by omega)
    subst h0
    simp only [lzDecodeLoop, Except.ok.injEq] at h
    subst h
    rfl
  | succ n ih =>
    intro t1 ht t2 out out1 h
    match t1 with
    | [] =>
      simp only [lzDecodeLoop, Except.ok.injEq] at h
      subst h
      rfl
    | 0 :: rest =>
      match rest with
      | [] => simp [lzDecodeLoop] at h
      | b :: rest2 =>
        simp only [lzDecodeLoop, List.cons_append] at h ⊢
        exact ih rest2 (by simp at ht ⊢; omega) t2 (out ++ [b]) out1 h
    | 1 :: rest =>
      match rest with
      | [] => simp [lzDecodeLoop] at h
      | [a] => simp [lzDecodeLoop] at h
      | [a, b] => simp [lzDecodeLoop] at h
      | a :: b :: l :: rest2 =>
        simp only [lzDecodeLoop, List.cons_append] at h ⊢
        split at h
        · exact absurd h (by simp)
        · rename_i hguard
          rw [if_neg hguard]
          exact ih rest2 (by simp at ht ⊢; omega) t2 _ out1 h
    | (flag + 2) :: rest => simp [lzDecodeLoop] at h

theorem lzDecodeLoop_append {t1 t2 out out1 : List Nat}
    (h : lzDecodeLoop t1 out = Except.ok out1) :
    lzDecodeLoop (t1 ++ t2) out = lzDecodeLoop t2 out1 :=
  lzDecodeLoop_append_aux t1.length t1 (Nat.le_refl _) t2 out out1 h

theorem tokenList_append_aux : ∀ (n : Nat) (t1 : List Nat), t1.length ≤ n →
    ∀ t2 l1 l2, tokenList t1 = some l1 → tokenList t2 = some l2 →
    tokenList (t1 ++ t2) = some (l1 ++ l2) := by
  intro n
  induction n with
  | zero =>
    intro t1 ht t2 l1 l2 h1 h2
    have h0 : t1 = [] := List.eq_nil_of_length_eq_zero (by omega)
    subst h0
    simp only [tokenList, Option.some.injEq] at h1
    subst h1
    simpa using h2
  | succ n ih =>
    intro t1 ht t2 l1 l2 h1 h2
    match t1 with
    | [] =>
      simp only [tokenList, Option.some.injEq] at h1
      subst h1
      simpa using h2
    | 0 :: rest =>
      match rest with
      | [] => simp [tokenList] at h1
      | b :: rest2 =>
        simp only [tokenList, List.cons_append, Option.map_eq_some'] at h1 ⊢
        obtain ⟨l1', hl1', rfl⟩ := h1
        refine ⟨l1' ++ l2, ?_, by simp⟩
        exact ih rest2 (by simp at ht ⊢; omega) t2 l1' l2 hl1' h2
    | 1 :: rest =>
      match rest with
      | [] => simp [tokenList] at h1
      | [a] => simp [tokenList] at h1
      | [a, b] => simp [tokenList] at h1
      | a :: b :: l :: rest2 =>
        simp only [tokenList, List.cons_append, Option.map_eq_some'] at h1 ⊢
        obtain ⟨l1', hl1', rfl⟩ := h1
        refine ⟨l1' ++ l2, ?_, by simp⟩
        exact ih rest2 (by simp at ht ⊢; omega) t2 l1' l2 hl1' h2
    | (flag + 2) :: rest => simp [tokenList] at h1

theorem tokenList_append {t1 t2 : List Nat} {l1 l2 : List LZTok}
    (h1 : tokenList t1 = some l1) (h2 : tokenList t2 = some l2) :
    tokenList (t1 ++ t2) = some (l1 ++ l2) :=
  tokenList_append_aux t1.length t1 (Nat.le_refl _) t2 l1 l2 h1 h2

/-! Bridging between the two list-access styles. -/

theorem get?_eq_some_getD {l : List Nat} {n : Nat} (h : n < l.length) :
    l.get? n = some (l.getD n 0) := by
  rw [List.get?_eq_getElem?, List.getElem?_eq_getElem h, List.getD_eq_getElem l 0 h]

theorem getD_of_get? {l : List Nat} {n b : Nat} (h : l.get? n = some b) :
    l.getD n 0 = b := by
  rw [List.getD_eq_getElem?_getD, ← List.get?_eq_getElem?, h]
  rfl

theorem lt_length_of_get? {l : List Nat} {n b : Nat} (h : l.get? n = some b) :
    n < l.length := by
  by_contra hn
  rw [List.get?_eq_getElem?, List.getElem?_eq_none (by omega)] at h
  exact Option.noConfusion h

/-! Single-token facts about the decoder and the parser. -/

theorem lzDecodeLoop_single_lit (b : Nat) (out : List Nat) :
    lzDecodeLoop [0x00, b] out = Except.ok (out ++ [b]) := by
  simp [lzDecodeLoop]

theorem tokenList_single_lit (b : Nat) : tokenList [0x00, b] = some [LZTok.lit b] := by
  simp [tokenList]

theorem lzDecodeLoop_single_match {off : Nat} (L : Nat) (out : List Nat)
    (hoff16 : off < 2 ^ 16) (h1 : 1 ≤ off) (h2 : off ≤ out.length) :
    lzDecodeLoop [0x01, toByte (off &&& 0xFF), toByte (off >>> 8), L] out =
      Except.ok (lzCopyLoop (out.length - off) L 0 out) := by
  simp only [lzDecodeLoop, offsetBytes_recombine hoff16]
  rw [if_neg (by omega)]

theorem tokenList_single_match {off : Nat} (L : Nat) (hoff16 : off < 2 ^ 16) :
    tokenList [0x01, toByte (off &&& 0xFF), toByte (off >>> 8), L] =
      some [LZTok.mat off L] := by
  simp [tokenList, offsetBytes_recombine hoff16]

/-! Facts about the candidate byte comparison. -/

theorem bytesMatch4_ne_none {input : List Nat} {c : Nat} (b0 b1 b2 b3 : Nat)
    (h : c + 4 ≤ input.length) :
    bytesMatch4 input c b0 b1 b2 b3 ≠ none := by
  unfold bytesMatch4
  rw [get?_eq_some_getD (by omega : c < input.length),
      get?_eq_some_getD (by omega : c + 1 < input.length),
      get?_eq_some_getD (by omega : c + 2 < input.length),
      get?_eq_some_getD (by omega : c + 3 < input.length)]
  simp only []
  split_ifs <;> simp

theorem bytesMatch4_true {input : List Nat} {c b0 b1 b2 b3 : Nat}
    (h : bytesMatch4 input c b0 b1 b2 b3 = some true) :
    input.get? c = some b0 ∧ input.get? (c + 1) = some b1 ∧
    input.get? (c + 2) = some b2 ∧ input.get? (c + 3) = some b3 := by
  unfold bytesMatch4 at h
  split at h
  · exact absurd h (by simp)
  · rename_i d0 h0
    split_ifs at h with hd0
    · split at h
      · exact absurd h (by simp)
      · rename_i d1 h1
        split_ifs at h with hd1
        · split at h
          · exact absurd h (by simp)
          · rename_i d2 h2
            split_ifs at h with hd2
            · split at h
              · exact absurd h (by simp)
              · rename_i d3 h3
                split_ifs at h with hd3
                · exact ⟨hd0 ▸ h0, hd1 ▸ h1, hd2 ▸ h2, hd3 ▸ h3⟩
                · exact absurd h (by simp)
            · exact absurd h (by simp)
        · exact absurd h (by simp)
    · exact absurd h (by simp)

/-- Master soundness invariant of the compressor loop: with enough fuel, a
table satisfying `tableOK`, and an output prefix that already decodes to
`input.take i` and parses into well-formed tokens, the loop succeeds, its
final stream decodes to the whole input, and it parses into well-formed
tokens. -/
theorem lzCompressLoop_sound (input : List Nat) :
    ∀ fuel i table out toks,
      input.length - i < fuel →
      i ≤ input.length →
      tableOK input i table →
      lzDecodeLoop out [] = Except.ok (input.take i) →
      tokenList out = some toks →
      (∀ tok ∈ toks, matchTokOK tok) →
      ∃ t toks2,
        lzCompressLoop input fuel table i out = some t ∧
        lzDecodeLoop t [] = Except.ok input ∧
        tokenList t = some toks2 ∧
        ∀ tok ∈ toks2, matchTokOK tok := by
  intro fuel
  induction fuel with
  | zero =>
    intro i table out toks hfuel
    exact absurd hfuel (by omega)
  | succ fuel ih =>
    intro i table out toks hfuel hi htab hdec htoks hok
    have hmm4 : lzMinMatch = 4 := rfl
    have hmax : lzMaxMatch = 255 := rfl
    have hwinv : lzWindowSize = 65535 := rfl
    by_cases hilt : i < input.length
    · -- the literal continuation, shared by four branches below
      have hsnoc : input.take i ++ [input.getD i 0] = input.take (i + 1) := by
        rw [List.take_succ, List.getElem?_eq_getElem hilt, List.getD_eq_getElem input 0 hilt]
        rfl
      have litdec : lzDecodeLoop (out ++ [0x00, input.getD i 0]) [] =
          Except.ok (input.take (i + 1)) := by
        rw [lzDecodeLoop_append hdec, lzDecodeLoop_single_lit, hsnoc]
      have litstep : ∀ tb : Nat → Option Nat, tableOK input (i + 1) tb →
          ∃ t toks2,
            lzCompressLoop input fuel tb (i + 1) (out ++ [0x00, input.getD i 0]) = some t ∧
            lzDecodeLoop t [] = Except.ok input ∧
            tokenList t = some toks2 ∧
            ∀ tok ∈ toks2, matchTokOK tok := by
        intro tb htb
        refine ih (i + 1) tb (out ++ [0x00, input.getD i 0])
          (toks ++ [LZTok.lit (input.getD i 0)]) (by omega) (by omega) htb litdec
          (tokenList_append htoks (tokenList_single_lit _)) ?_
        intro tok htok
        rcases List.mem_append.mp htok with hh | hh
        · exact hok tok hh
        · rcases List.mem_singleton.mp hh with rfl
          trivial
      simp only [lzCompressLoop]
      rw [if_pos hilt]
      by_cases hshort : input.length < i + lzMinMatch
      · rw [if_pos hshort, get?_eq_some_getD hilt]
        simp only []
        exact litstep table (by
          intro k c hkc
          exact ⟨(htab k c hkc).1, by have := (htab k c hkc).2; omega⟩)
      · rw [if_neg hshort]
        rw [hmm4] at hshort
        have h4 : i + 4 ≤ input.length := by omega
        rw [get?_eq_some_getD (show i < input.length by omega),
            get?_eq_some_getD (show i + 1 < input.length by omega),
            get?_eq_some_getD (show i + 2 < input.length by omega),
            get?_eq_some_getD (show i + 3 < input.length by omega)]
        simp only []
        rw [if_pos (lzHash_lt _ _ _ _)]
        have htb' : ∀ bound, i < bound →
            tableOK input bound (fun k =>
              if k = lzHash (input.getD i 0) (input.getD (i + 1) 0)
                    (input.getD (i + 2) 0) (input.getD (i + 3) 0)
              then some i else table k) := by
          intro bound hb k c hkc
          simp only [] at hkc
          by_cases hk : k = lzHash (input.getD i 0) (input.getD (i + 1) 0)
              (input.getD (i + 2) 0) (input.getD (i + 3) 0)
          · rw [if_pos hk] at hkc
            cases hkc
            exact ⟨by rw [hmm4]; omega, hb⟩
          · rw [if_neg hk] at hkc
            exact ⟨(htab k c hkc).1, by have := (htab k c hkc).2; omega⟩
        cases hcand : table (lzHash (input.getD i 0) (input.getD (i + 1) 0)
            (input.getD (i + 2) 0) (input.getD (i + 3) 0)) with
        | none =>
          simp only []
          exact litstep _ (htb' (i + 1) (by omega))
        | some c =>
          simp only []
          by_cases hwin : i - c < lzWindowSize ∧ 0 < i - c
          · rw [if_pos hwin]
            have hc4 : c + 4 ≤ input.length := by
              have := (htab _ _ hcand).1
              rw [hmm4] at this
              omega
            have hci : c < i := by omega
            cases hbm : bytesMatch4 input c (input.getD i 0) (input.getD (i + 1) 0)
                (input.getD (i + 2) 0) (input.getD (i + 3) 0) with
            | none => exact absurd hbm (bytesMatch4_ne_none _ _ _ _ hc4)
            | some bb =>
              cases bb with
              | false =>
                simp only []
                exact litstep _ (htb' (i + 1) (by omega))
              | true =>
                simp only []
                obtain ⟨hc0, hc1, hc2, hc3⟩ := bytesMatch4_true hbm
                have hbase : ∀ j, j < lzMinMatch →
                    input.getD (c + j) 0 = input.getD (i + j) 0 := by
                  rw [hmm4]
                  intro j hj
                  interval_cases j
                  · simpa using getD_of_get? hc0
                  · simpa using getD_of_get? hc1
                  · simpa using getD_of_get? hc2
                  · simpa using getD_of_get? hc3
                have hge : lzMinMatch ≤ extendMatch input c i lzMaxMatch lzMinMatch :=
                  extendMatch_ge input c i lzMaxMatch lzMinMatch
                have hle : extendMatch input c i lzMaxMatch lzMinMatch ≤ lzMaxMatch :=
                  extendMatch_le input c i lzMaxMatch lzMinMatch (by rw [hmm4, hmax]; omega)
                have hiend : i + extendMatch input c i lzMaxMatch lzMinMatch ≤ input.length :=
                  extendMatch_add_le input c i lzMaxMatch lzMinMatch (by rw [hmm4]; omega)
                have hbytes : ∀ j, j < extendMatch input c i lzMaxMatch lzMinMatch →
                    input.getD (c + j) 0 = input.getD (i + j) 0 :=
                  extendMatch_bytes input c i lzMaxMatch lzMinMatch hbase
                have hml4 : 4 ≤ extendMatch input c i lzMaxMatch lzMinMatch := by
                  rw [hmm4] at hge; exact hge
                have hml255 : extendMatch input c i lzMaxMatch lzMinMatch ≤ 255 := by
                  rw [hmax] at hle; exact hle
                have hmlByte : toByte (extendMatch input c i lzMaxMatch lzMinMatch) =
                    extendMatch input c i lzMaxMatch lzMinMatch :=
                  toByte_eq_of_lt (by omega)
                have hoff1 : 1 ≤ i - c := hwin.2
                have hoff16 : i - c < 2 ^ 16 := by
                  have := hwin.1
                  rw [hwinv] at this
                  omega
                have hlentake : (input.take i).length = i := by
                  rw [List.length_take]
                  omega
                have hcopy : lzCopyLoop ((input.take i).length - (i - c))
                    (extendMatch input c i lzMaxMatch lzMinMatch) 0 (input.take i) =
                    input.take (i + extendMatch input c i lzMaxMatch lzMinMatch) := by
                  rw [hlentake, show i - (i - c) = c by omega]
                  have := lzCopyLoop_take input c i hci
                    (extendMatch input c i lzMaxMatch lzMinMatch) 0
                    (by omega) (by intro k hk; exact hbytes k (by omega))
                  rw [show i + 0 = i by omega] at this
                  rw [this]
                have matdec : lzDecodeLoop (out ++ [0x01, toByte ((i - c) &&& 0xFF),
                    toByte ((i - c) >>> 8),
                    toByte (extendMatch input c i lzMaxMatch lzMinMatch)]) [] =
                    Except.ok (input.take (i + extendMatch input c i lzMaxMatch lzMinMatch)) := by
                  rw [lzDecodeLoop_append hdec, hmlByte,
                      lzDecodeLoop_single_match _ _ hoff16 hoff1 (by rw [hlentake]; omega),
                      hcopy]
                have mattoks : tokenList (out ++ [0x01, toByte ((i - c) &&& 0xFF),
                    toByte ((i - c) >>> 8),
                    toByte (extendMatch input c i lzMaxMatch lzMinMatch)]) =
                    some (toks ++ [LZTok.mat (i - c)
                      (extendMatch input c i lzMaxMatch lzMinMatch)]) := by
                  rw [hmlByte]
                  exact tokenList_append htoks (tokenList_single_match _ hoff16)
                refine ih (i + extendMatch input c i lzMaxMatch lzMinMatch) _ _
                  (toks ++ [LZTok.mat (i - c) (extendMatch input c i lzMaxMatch lzMinMatch)])
                  (by omega) hiend (htb' _ (by omega)) matdec mattoks ?_
                intro tok htok
                rcases List.mem_append.mp htok with hh | hh
                · exact hok tok hh
                · rcases List.mem_singleton.mp hh with rfl
                  refine ⟨hoff1, hwin.1, hge, hle⟩
          · rw [if_neg hwin]
            exact litstep _ (htb' (i + 1) (by omega))
    · simp only [lzCompressLoop]
      rw [if_neg hilt]
      have hieq : i = input.length := by omega
      refine ⟨out, toks, rfl, ?_, htoks, hok⟩
      rw [hieq, List.take_length] at hdec
      exact hdec

/-- Totality and soundness of the whole compressor: it always succeeds,
its stream decodes back to the input, and its stream parses into
well-formed tokens. -/
theorem lzCompressTokens_sound (input : List Nat) :
    ∃ t toks, lzCompressTokens input = some t ∧
      lzDecodeLoop t [] = Except.ok input ∧
      tokenList t = some toks ∧ ∀ tok ∈ toks, matchTokOK tok := by
  unfold lzCompressTokens
  by_cases h0 : input.length = 0
  · rw [if_pos h0]
    have he : input = [] := List.eq_nil_of_length_eq_zero h0
    subst he
    exact ⟨[], [], rfl, rfl, rfl, by simp⟩
  · rw [if_neg h0]
    obtain ⟨t, toks, h1, h2, h3, h4⟩ := lzCompressLoop_sound input (input.length + 1) 0
      (fun _ => none) [] [] (by omega) (by omega)
      (fun k c h => Option.noConfusion h) rfl rfl (by simp)
    exact ⟨t, toks, h1, h2, h3, h4⟩

/-- Roundtrip through `lzDecompressTokens`, size check included. -/
theorem lzCompressTokens_roundtrip (input : List Nat) :
    ∃ t, lzCompressTokens input = some t ∧
      lzDecompressTokens t (input.length : Int) = Except.ok input := by
  obtain ⟨t, toks, hc, hdec, -, -⟩ := lzCompressTokens_sound input
  refine ⟨t, hc, ?_⟩
  unfold lzDecompressTokens
  by_cases hemp : t.length = 0 ∧ (input.length : Int) = 0
  · rw [if_pos hemp]
    have ht : t = [] := List.eq_nil_of_length_eq_zero hemp.1
    subst ht
    exact hdec
  · rw [if_neg hemp, hdec]
    simp

/-- C1: for every byte sequence `x`, decompressing the encoder's output
with expected size `len x` reproduces `x` exactly: `lzDecompressTokens`
applied to the stream of `lzCompressTokens x` and `x.length` returns `x`
with no error. -/
theorem claim_C1_lz_roundtrip (x : List Nat) :
    ∃ t, lzCompressTokens x = some t ∧
      lzDecompressTokens t (x.length : Int) = Except.ok x :=
  lzCompressTokens_roundtrip x

/-- C7: LZ compression is total — for every input the compressor returns a
token stream; no input access, candidate access, or hash-table access
falls out of bounds (all such accesses are modelled as `none`), and the
supplied fuel never runs out. -/
theorem claim_C7_lz_total (x : List Nat) :
    ∃ t, lzCompressTokens x = some t := by
  obtain ⟨t, -, hc, -, -, -⟩ := lzCompressTokens_sound x
  exact ⟨t, hc⟩

/-- C2, counterexample: on the five-byte all-zero input the encoder emits
a literal followed by the match `offset = 1, length = 4`, a
self-overlapping match with `offset < matchLen`, contradicting the claim
that the encoder never emits `offset < matchLen`. -/
theorem claim_C2_counterexample :
    lzCompressTokens [0, 0, 0, 0, 0] = some [0x00, 0x00, 0x01, 0x01, 0x00, 0x04] ∧
    tokenList [0x00, 0x00, 0x01, 0x01, 0x00, 0x04] =
      some [LZTok.lit 0, LZTok.mat 1 4] ∧ (1 : Nat) < 4 :=
  ⟨by decide, by decide, by decide⟩

/-- C2, amended: every match token emitted by the encoder has
`1 ≤ offset < 65535` and `4 ≤ length ≤ 255`; self-overlapping matches
with `offset < matchLen` do occur (see the counterexample), and are
handled by the decoder's byte-wise copy. -/
theorem claim_C2_amended_match_shape (x : List Nat) :
    ∃ t toks, lzCompressTokens x = some t ∧ tokenList t = some toks ∧
      ∀ tok ∈ toks, matchTokOK tok := by
  obtain ⟨t, toks, hc, -, htl, hok⟩ := lzCompressTokens_sound x
  exact ⟨t, toks, hc, htl, hok⟩

/-! Symbolic evaluation of the compressor on the all-zero 1024-byte
input.  The loop performs only nine iterations there (one literal, four
matches of length 255, three tail literals, and the exit), so the token
stream is computed by stepping the loop once per iteration instead of by
kernel evaluation over the whole input. -/

theorem getD_replicate_zero (n i : Nat) : (List.replicate n (0 : Nat)).getD i 0 = 0 := by
  rw [List.getD_eq_getElem?_getD, List.getElem?_replicate]
  split_ifs <;> rfl

theorem get?_replicate_zero {n i : Nat} (h : i < n) :
    (List.replicate n (0 : Nat)).get? i = some 0 := by
  rw [List.get?_eq_getElem?, List.getElem?_replicate, if_pos h]

theorem bytesMatch4_zeros {n c : Nat} (h : c + 4 ≤ n) :
    bytesMatch4 (List.replicate n 0) c 0 0 0 0 = some true := by
  unfold bytesMatch4
  rw [get?_replicate_zero (show c < n by omega),
      get?_replicate_zero (show c + 1 < n by omega),
      get?_replicate_zero (show c + 2 < n by omega),
      get?_replicate_zero (show c + 3 < n by omega)]
  simp

theorem lzHash_zero : lzHash 0 0 0 0 = 0 := by decide

/-- On an all-zero input the match extension always runs to the length
cap 255 when 255 more bytes follow the scan position. -/
theorem extendMatch_zeros {n c i : Nat} (hci : c < i) (hn : i + 255 < n) :
    ∀ fuel ml, ml ≤ 255 → 255 ≤ ml + fuel →
      extendMatch (List.replicate n 0) c i fuel ml = 255 := by
  intro fuel
  induction fuel with
  | zero =>
    intro ml h1 h2
    have h3 : ml = 255 := by omega
    subst h3
    rfl
  | succ f ih =>
    intro ml h1 h2
    by_cases hml : ml = 255
    · subst hml
      unfold extendMatch
      rw [if_neg (by
        simp only [lzMaxMatch, List.length_replicate]
        omega)]
    · unfold extendMatch
      rw [if_pos (by
        refine ⟨?_, ?_, ?_, ?_⟩
        · rw [List.length_replicate]; omega
        · rw [List.length_replicate]; omega
        · simp only [lzMaxMatch]; omega
        · rw [getD_replicate_zero, getD_replicate_zero])]
      exact ih (ml + 1) (by omega) (by omega)

/-- One loop step on the all-zero input when the hash slot is empty:
emit a literal and store the position. -/
theorem lzCompressLoop_zero_emptySlot (fuel i : Nat) (table : Nat → Option Nat)
    (out : List Nat) (hfuel : 1 ≤ fuel) (htab : table 0 = none) (hi : i + 4 ≤ 1024) :
    lzCompressLoop (List.replicate 1024 0) fuel table i out =
      lzCompressLoop (List.replicate 1024 0) (fuel - 1)
        (fun k => if k = 0 then some i else table k) (i + 1) (out ++ [0x00, 0]) := by
  obtain ⟨f, rfl⟩ : ∃ f, fuel = f + 1 := ⟨fuel - 1, by omega⟩
  rw [show f + 1 - 1 = f from rfl]
  simp only [lzCompressLoop]
  rw [if_pos (by rw [List.length_replicate]; omega)]
  rw [if_neg (by simp only [List.length_replicate, lzMinMatch]; omega)]
  rw [get?_replicate_zero (show i < 1024 by omega),
      get?_replicate_zero (show i + 1 < 1024 by omega),
      get?_replicate_zero (show i + 2 < 1024 by omega),
      get?_replicate_zero (show i + 3 < 1024 by omega)]
  simp only []
  rw [lzHash_zero, if_pos (show (0 : Nat) < hashSize by decide), htab]

/-- One loop step on the all-zero input when the hash slot holds an
earlier position `c` and 255 more bytes follow: emit the match
`(offset i - c, length 255)`, store the position and jump ahead. -/
theorem lzCompressLoop_zero_match (fuel c i : Nat) (table : Nat → Option Nat)
    (out : List Nat) (hfuel : 1 ≤ fuel) (htab : table 0 = some c) (hci : c < i)
    (hwin : i - c < 65535) (hn : i + 255 < 1024) :
    lzCompressLoop (List.replicate 1024 0) fuel table i out =
      lzCompressLoop (List.replicate 1024 0) (fuel - 1)
        (fun k => if k = 0 then some i else table k) (i + 255)
        (out ++ [0x01, toByte ((i - c) &&& 0xFF), toByte ((i - c) >>> 8), 255]) := by
  obtain ⟨f, rfl⟩ : ∃ f, fuel = f + 1 := ⟨fuel - 1, by omega⟩
  rw [show f + 1 - 1 = f from rfl]
  simp only [lzCompressLoop]
  rw [if_pos (by rw [List.length_replicate]; omega)]
  rw [if_neg (by simp only [List.length_replicate, lzMinMatch]; omega)]
  rw [get?_replicate_zero (show i < 1024 by omega),
      get?_replicate_zero (show i + 1 < 1024 by omega),
      get?_replicate_zero (show i + 2 < 1024 by omega),
      get?_replicate_zero (show i + 3 < 1024 by omega)]
  simp only []
  rw [lzHash_zero, if_pos (show (0 : Nat) < hashSize by decide), htab]
  simp only []
  rw [if_pos (⟨hwin, by omega⟩ : i - c < lzWindowSize ∧ 0 < i - c)]
  rw [bytesMatch4_zeros (show c + 4 ≤ 1024 by omega)]
  simp only []
  rw [extendMatch_zeros hci hn lzMaxMatch lzMinMatch (by decide) (by decide)]
  rw [show toByte 255 = 255 from rfl]

/-- One loop step on the all-zero input within four bytes of the end:
emit a literal without touching the table. -/
theorem lzCompressLoop_zero_tailLit (fuel i : Nat) (table : Nat → Option Nat)
    (out : List Nat) (hfuel : 1 ≤ fuel) (hi : i < 1024) (htail : 1024 < i + 4) :
    lzCompressLoop (List.replicate 1024 0) fuel table i out =
      lzCompressLoop (List.replicate 1024 0) (fuel - 1) table (i + 1) (out ++ [0x00, 0]) := by
  obtain ⟨f, rfl⟩ : ∃ f, fuel = f + 1 := ⟨fuel - 1, by omega⟩
  rw [show f + 1 - 1 = f from rfl]
  simp only [lzCompressLoop]
  rw [if_pos (by rw [List.length_replicate]; omega)]
  rw [if_pos (by simp only [List.length_replicate, lzMinMatch]; omega)]
  rw [get?_replicate_zero hi]

/-- The loop exit at position 1024. -/
theorem lzCompressLoop_zero_done (fuel : Nat) (table : Nat → Option Nat)
    (out : List Nat) (hfuel : 1 ≤ fuel) :
    lzCompressLoop (List.replicate 1024 0) fuel table 1024 out = some out := by
  obtain ⟨f, rfl⟩ : ∃ f, fuel = f + 1 := ⟨fuel - 1, by omega⟩
  simp only [lzCompressLoop]
  rw [if_neg (by rw [List.length_replicate]; omega)]

/-- The compressor's full token stream on 1024 zero bytes: one literal,
the match `(1, 255)`, three matches `(255, 255)`, three literals. -/
theorem lzCompressTokens_zeros_1024 :
    lzCompressTokens (List.replicate 1024 0) =
      some [0x00, 0x00, 0x01, 0x01, 0x00, 0xFF, 0x01, 0xFF, 0x00, 0xFF,
            0x01, 0xFF, 0x00, 0xFF, 0x01, 0xFF, 0x00, 0xFF,
            0x00, 0x00, 0x00, 0x00, 0x00, 0x00] := by
  unfold lzCompressTokens
  rw [if_neg (by rw [List.length_replicate]; omega), List.length_replicate]
  rw [show (1024 + 1 : Nat) = 1025 from rfl]
  rw [lzCompressLoop_zero_emptySlot 1025 0 _ _ (by omega) (by rfl) (by omega)]
  rw [show (1025 - 1 : Nat) = 1024 from rfl, show (0 + 1 : Nat) = 1 from rfl]
  rw [lzCompressLoop_zero_match 1024 0 1 _ _ (by omega) (by rfl) (by omega) (by omega) (by omega)]
  rw [show (1024 - 1 : Nat) = 1023 from rfl, show (1 + 255 : Nat) = 256 from rfl]
  rw [lzCompressLoop_zero_match 1023 1 256 _ _ (by omega) (by rfl) (by omega) (by omega) (by omega)]
  rw [show (1023 - 1 : Nat) = 1022 from rfl, show (256 + 255 : Nat) = 511 from rfl]
  rw [lzCompressLoop_zero_match 1022 256 511 _ _ (by omega) (by rfl) (by omega) (by omega) (by omega)]
  rw [show (1022 - 1 : Nat) = 1021 from rfl, show (511 + 255 : Nat) = 766 from rfl]
  rw [lzCompressLoop_zero_match 1021 511 766 _ _ (by omega) (by rfl) (by omega) (by omega) (by omega)]
  rw [show (1021 - 1 : Nat) = 1020 from rfl, show (766 + 255 : Nat) = 1021 from rfl]
  rw [lzCompressLoop_zero_tailLit 1020 1021 _ _ (by omega) (by omega) (by omega)]
  rw [show (1020 - 1 : Nat) = 1019 from rfl, show (1021 + 1 : Nat) = 1022 from rfl]
  rw [lzCompressLoop_zero_tailLit 1019 1022 _ _ (by omega) (by omega) (by omega)]
  rw [show (1019 - 1 : Nat) = 1018 from rfl, show (1022 + 1 : Nat) = 1023 from rfl]
  rw [lzCompressLoop_zero_tailLit 1018 1023 _ _ (by omega) (by omega) (by omega)]
  rw [show (1018 - 1 : Nat) = 1017 from rfl, show (1023 + 1 : Nat) = 1024 from rfl]
  rw [lzCompressLoop_zero_done 1017 _ _ (by omega)]
  rfl

/-- C3, counterexample: on 1024 zero bytes the token stream does not
begin with four literal tokens, and its matches do not all have offset 1:
the token at index 1 is already the match `(1, 255)` and the token at
index 2 is the match `(255, 255)`. -/
theorem claim_C3_counterexample :
    tokenList ((lzCompressTokens (List.replicate 1024 0)).getD []) =
      some [LZTok.lit 0, LZTok.mat 1 255, LZTok.mat 255 255, LZTok.mat 255 255,
            LZTok.mat 255 255, LZTok.lit 0, LZTok.lit 0, LZTok.lit 0] ∧
    [LZTok.lit 0, LZTok.mat 1 255, LZTok.mat 255 255, LZTok.mat 255 255,
     LZTok.mat 255 255, LZTok.lit 0, LZTok.lit 0, LZTok.lit 0].get? 1 =
      some (LZTok.mat 1 255) ∧
    [LZTok.lit 0, LZTok.mat 1 255, LZTok.mat 255 255, LZTok.mat 255 255,
     LZTok.mat 255 255, LZTok.lit 0, LZTok.lit 0, LZTok.lit 0].get? 2 =
      some (LZTok.mat 255 255) := by
  refine ⟨?_, by decide, by decide⟩
  rw [lzCompressTokens_zeros_1024]
  decide

/-- C3, amended: on 1024 zero bytes the encoder emits one literal, then
the match `(offset 1, length 255)`, then three matches
`(offset 255, length 255)` — 1020 matched bytes in total — then three
literals; decoding that stream with expected size 1024 yields 1024 zero
bytes. -/
theorem claim_C3_amended_zero_run :
    lzCompressTokens (List.replicate 1024 0) =
      some [0x00, 0x00, 0x01, 0x01, 0x00, 0xFF, 0x01, 0xFF, 0x00, 0xFF,
            0x01, 0xFF, 0x00, 0xFF, 0x01, 0xFF, 0x00, 0xFF,
            0x00, 0x00, 0x00, 0x00, 0x00, 0x00] ∧
    tokenList [0x00, 0x00, 0x01, 0x01, 0x00, 0xFF, 0x01, 0xFF, 0x00, 0xFF,
               0x01, 0xFF, 0x00, 0xFF, 0x01, 0xFF, 0x00, 0xFF,
               0x00, 0x00, 0x00, 0x00, 0x00, 0x00] =
      some [LZTok.lit 0, LZTok.mat 1 255, LZTok.mat 255 255, LZTok.mat 255 255,
            LZTok.mat 255 255, LZTok.lit 0, LZTok.lit 0, LZTok.lit 0] ∧
    lzDecompressTokens [0x00, 0x00, 0x01, 0x01, 0x00, 0xFF, 0x01, 0xFF, 0x00, 0xFF,
                        0x01, 0xFF, 0x00, 0xFF, 0x01, 0xFF, 0x00, 0xFF,
                        0x00, 0x00, 0x00, 0x00, 0x00, 0x00] (1024 : Int) =
      Except.ok (List.replicate 1024 0) := by
  refine ⟨lzCompressTokens_zeros_1024, by decide, ?_⟩
  obtain ⟨t, hc, hd⟩ := lzCompressTokens_roundtrip (List.replicate 1024 0)
  rw [lzCompressTokens_zeros_1024] at hc
  injection hc with hc2
  rw [← hc2] at hd
  simpa using hd

/-- C4: for every block, the per-block encoder stores the LZ token stream
behind tag 0x00 iff `len tokens < n`, stores the raw bytes behind tag 0xFF
otherwise (ties included), and the encoded block never exceeds
`1 + n` bytes. -/
theorem claim_C4_mode_rule (buf : List Nat) :
    ∃ tokens enc, lzCompressTokens buf = some tokens ∧ encodeBlock buf = some enc ∧
      enc = (if tokens.length < buf.length then 0x00 :: tokens else 0xFF :: buf) ∧
      enc.length ≤ 1 + buf.length := by
  obtain ⟨tokens, -, hc, -, -, -⟩ := lzCompressTokens_sound buf
  refine ⟨tokens, _, hc, ?_, rfl, ?_⟩
  · unfold encodeBlock
    rw [hc]
    simp only []
    by_cases hlen : tokens.length < buf.length
    · rw [if_pos hlen, if_neg (show ¬buf.length + 1 ≤ tokens.length + 1 by omega)]
    · rw [if_neg hlen, if_pos (show buf.length + 1 ≤ tokens.length + 1 by omega)]
  · by_cases hlen : tokens.length < buf.length
    · rw [if_pos hlen]
      simp only [List.length_cons]
      omega
    · rw [if_neg hlen]
      simp only [List.length_cons]
      omega

/-- Any invalid-match-offset error reported by the decode loop records
the output length at the failure point — at least the length of the
starting output — together with an offset that is zero or exceeds that
recorded length. -/
theorem lzDecodeLoop_invalid_facts : ∀ (n : Nat) (toks : List Nat), toks.length ≤ n →
    ∀ out off L, lzDecodeLoop toks out = Except.error (LZError.invalidMatchOffset off L) →
    out.length ≤ L ∧ (off = 0 ∨ L < off) := by
  intro n
  induction n with
  | zero =>
    intro toks ht out off L h
    have h0 : toks = [] := List.eq_nil_of_length_eq_zero (by omega)
    subst h0
    simp [lzDecodeLoop] at h
  | succ n ih =>
    intro toks ht out off L h
    match toks with
    | [] => simp [lzDecodeLoop] at h
    | 0 :: rest =>
      match rest with
      | [] => simp [lzDecodeLoop] at h
      | b :: rest2 =>
        simp only [lzDecodeLoop] at h
        have hrec := ih rest2 (by simp at ht ⊢; omega) (out ++ [b]) off L h
        rw [List.length_append] at hrec
        exact ⟨by have := hrec.1; simp at this; omega, hrec.2⟩
    | 1 :: rest =>
      match rest with
      | [] => simp [lzDecodeLoop] at h
      | [a] => simp [lzDecodeLoop] at h
      | [a, b] => simp [lzDecodeLoop] at h
      | a :: b :: l :: rest2 =>
        simp only [lzDecodeLoop] at h
        split at h
        · rename_i hguard
          injection h with h2
          injection h2 with h3 h4
          constructor
          · omega
          · rw [← h3, ← h4]
            omega
        · rename_i hguard
          have hrec := ih rest2 (by simp at ht ⊢; omega) _ off L h
          rw [lzCopyLoop_length] at hrec
          exact ⟨by omega, hrec.2⟩
    | (f + 2) :: rest => simp [lzDecodeLoop] at h

/-- C6: a match token fails with the invalid-match-offset error iff its
decoded offset is zero or exceeds the current output length; in
particular the token stream `[0x01, 0x00, 0x00, 0x05]` decoded against an
empty output yields exactly that error. -/
theorem claim_C6_invalid_offset :
    (∀ a b l rest out,
       lzDecodeLoop (0x01 :: a :: b :: l :: rest) out =
         Except.error (LZError.invalidMatchOffset (a ||| (b <<< 8)) out.length) ↔
       (a ||| (b <<< 8) = 0 ∨ out.length < a ||| (b <<< 8))) ∧
    lzDecompressTokens [0x01, 0x00, 0x00, 0x05] 0 =
      Except.error (LZError.invalidMatchOffset 0 0) := by
  constructor
  · intro a b l rest out
    constructor
    · intro h
      simp only [lzDecodeLoop] at h
      split at h
      · rename_i hguard
        omega
      · rename_i hguard
        have hfacts := lzDecodeLoop_invalid_facts rest.length rest (Nat.le_refl _) _ _ _ h
        rw [lzCopyLoop_length] at hfacts
        have h1 := hfacts.1
        have h2 := hfacts.2
        omega
    · intro h
      simp only [lzDecodeLoop]
      rw [if_pos (show a ||| (b <<< 8) ≤ 0 ∨ out.length < a ||| (b <<< 8) by omega)]
  · rfl

theorem leBytes_length : ∀ k v, (leBytes k v).length = k := by
  intro k
  induction k with
  | zero => intro v; rfl
  | succ n ih => intro v; simp [leBytes, ih]

theorem deBytes_leBytes : ∀ k v, v < 256 ^ k → deBytes (leBytes k v) = v := by
  intro k
  induction k with
  | zero =>
    intro v hv
    interval_cases v
    rfl
  | succ n ih =>
    intro v hv
    have hdiv : v / 256 < 256 ^ n := by
      rw [Nat.div_lt_iff_lt_mul (by norm_num)]
      calc v < 256 ^ (n + 1) := hv
        _ = 256 ^ n * 256 := by ring
    simp only [leBytes, deBytes, ih (v / 256) hdiv]
    omega

theorem readN_append (l r : List Nat) : readN l.length (l ++ r) = Except.ok (l, r) := by
  unfold readN
  rw [if_neg (by simp)]
  rw [List.take_left, List.drop_left]

theorem readSizes_join (rest : List Nat) :
    ∀ sizes : List Nat, (∀ v ∈ sizes, v < 256 ^ 8) →
      readSizes sizes.length ((sizes.map (leBytes 8)).flatten ++ rest) =
        Except.ok (sizes, rest) := by
  intro sizes
  induction sizes with
  | nil => intro hv; simp [readSizes]
  | cons v vs ih =>
    intro hv
    simp only [List.length_cons, List.map_cons, List.flatten_cons, readSizes, List.append_assoc]
    have hr := readN_append (leBytes 8 v) ((vs.map (leBytes 8)).flatten ++ rest)
    rw [leBytes_length] at hr
    rw [hr]
    simp only []
    rw [ih (fun w hw => hv w (List.mem_cons_of_mem v hw))]
    simp only []
    rw [deBytes_leBytes 8 v (hv v (List.mem_cons_self v vs))]

theorem readN_magic (r : List Nat) : readN 4 (magicBytes ++ r) = Except.ok (magicBytes, r) :=
  readN_append magicBytes r

theorem readN_leBytes (k v : Nat) (r : List Nat) :
    readN k (leBytes k v ++ r) = Except.ok (leBytes k v, r) := by
  have h := readN_append (leBytes k v) r
  rwa [leBytes_length] at h

/-- C5: for every valid header (filename at most 65535 bytes, size-table
length equal to `NumBlocks`, fields within their machine types), writing
the header and then reading the produced bytes succeeds and returns the
same header with nothing left over. -/
theorem claim_C5_header_roundtrip (h : FileHeader)
    (hname : h.Filename.length ≤ 0xFFFF)
    (hcount : h.BlockCompSizes.length = h.NumBlocks)
    (hos : h.OriginalSize < 2 ^ 64) (hbs : h.BlockSize < 2 ^ 32)
    (hnb : h.NumBlocks < 2 ^ 64)
    (hsz : ∀ v ∈ h.BlockCompSizes, v < 2 ^ 64) :
    ∃ bs, WriteHeader h = Except.ok bs ∧ ReadHeader bs = Except.ok (h, []) := by
  obtain ⟨fn, os, bsz, nb, tbl⟩ := h
  simp only at hname hcount hos hbs hnb hsz
  have hw : WriteHeader ⟨fn, os, bsz, nb, tbl⟩ =
      Except.ok (magicBytes ++ leBytes 2 fn.length ++ leBytes 8 os ++ fn ++
        leBytes 4 bsz ++ leBytes 8 nb ++ (tbl.map (leBytes 8)).flatten) := by
    unfold WriteHeader
    rw [if_neg (by simp only []; omega), if_neg (by simp only []; omega)]
  refine ⟨_, hw, ?_⟩
  unfold ReadHeader
  simp only [List.append_assoc]
  rw [readN_magic]
  simp only []
  rw [if_neg (by simp)]
  rw [readN_leBytes]
  simp only []
  rw [readN_leBytes]
  simp only []
  rw [deBytes_leBytes 2 fn.length (by norm_num at hname ⊢; omega), readN_append]
  simp only []
  rw [readN_leBytes]
  simp only []
  rw [readN_leBytes]
  simp only []
  rw [deBytes_leBytes 8 nb (by norm_num at hnb ⊢; omega), ← hcount]
  rw [show (tbl.map (leBytes 8)).flatten = (tbl.map (leBytes 8)).flatten ++ [] by simp,
      readSizes_join [] tbl (by intro v hv; have := hsz v hv; norm_num at this ⊢; omega)]
  simp only []
  rw [deBytes_leBytes 8 os (by norm_num at hos ⊢; omega),
      deBytes_leBytes 4 bsz (by norm_num at hbs ⊢; omega)]

/-- C5 witness: the roundtrip at a concrete small header. -/
theorem claim_C5_header_roundtrip_witness :
    ∃ bs, WriteHeader ⟨[65], 10, 4096, 1, [5]⟩ = Except.ok bs ∧
      ReadHeader bs = Except.ok (⟨[65], 10, 4096, 1, [5]⟩, []) :=
  claim_C5_header_roundtrip ⟨[65], 10, 4096, 1, [5]⟩ (by norm_num) (by norm_num)
    (by norm_num) (by norm_num) (by norm_num)
    (by intro v hv; simp at hv; subst hv; norm_num)

theorem bspRange_eq (numBlocks C id : Nat) :
    bspRange numBlocks C id =
      if id * C ≥ numBlocks then (0, 0)
      else (id * C, if id * C + C > numBlocks then numBlocks else id * C + C) := by
  simp only [bspRange]
  by_cases h : id * C ≥ numBlocks
  · rw [if_pos h, if_pos h]
    simp
  · rw [if_neg h, if_neg h]

/-- The effective worker count equals `min (max threads 1) numBlocks`. -/
theorem bspThreads_int (threads : Int) (numBlocks : Nat) (h : 1 ≤ numBlocks) :
    (bspThreads threads numBlocks : Int) = min (max threads 1) (numBlocks : Int) := by
  simp only [bspThreads]
  split_ifs <;> omega

theorem bspChunkSize_mul_ge {numBlocks t : Nat} (ht : 1 ≤ t) :
    numBlocks ≤ t * bspChunkSize numBlocks t := by
  unfold bspChunkSize
  have hdm := Nat.div_add_mod numBlocks t
  have hmlt : numBlocks % t < t := Nat.mod_lt _ (by omega)
  by_cases hr : numBlocks % t ≠ 0
  · rw [if_pos hr]
    have h2 : t * (numBlocks / t + 1) = t * (numBlocks / t) + t := by ring
    omega
  · rw [if_neg hr]
    omega

theorem bspChunkSize_pos {numBlocks t : Nat} (ht : 1 ≤ t) (htn : t ≤ numBlocks) :
    1 ≤ bspChunkSize numBlocks t := by
  unfold bspChunkSize
  have h1 : 1 ≤ numBlocks / t := (Nat.one_le_div_iff (by omega)).mpr htn
  by_cases hr : numBlocks % t ≠ 0
  · rw [if_pos hr]; omega
  · rw [if_neg hr]; omega

/-- C8: in the BSP drivers, for `numBlocks ≥ 1` and any requested thread
count, the effective worker count is `min (max threads 1) numBlocks`,
every per-worker range stays below `numBlocks`, and every block index
lies in exactly one worker's range: the ranges are pairwise disjoint and
cover `[0, numBlocks)`. -/
theorem claim_C8_bsp_partition (threads : Int) (numBlocks : Nat) (hnb : 1 ≤ numBlocks) :
    ((bspThreads threads numBlocks : Int) = min (max threads 1) (numBlocks : Int)) ∧
    (∀ w, w < bspThreads threads numBlocks →
      (bspRange numBlocks (bspChunkSize numBlocks (bspThreads threads numBlocks)) w).2 ≤
        numBlocks) ∧
    (∀ j, j < numBlocks →
      ∃! w, w < bspThreads threads numBlocks ∧
        (bspRange numBlocks (bspChunkSize numBlocks (bspThreads threads numBlocks)) w).1 ≤ j ∧
        j < (bspRange numBlocks (bspChunkSize numBlocks (bspThreads threads numBlocks)) w).2) := by
  have hTmin := bspThreads_int threads numBlocks hnb
  have hT1 : 1 ≤ bspThreads threads numBlocks := by omega
  have hTle : bspThreads threads numBlocks ≤ numBlocks := by omega
  have hC1 : 1 ≤ bspChunkSize numBlocks (bspThreads threads numBlocks) :=
    bspChunkSize_pos hT1 hTle
  have hNC : numBlocks ≤ bspThreads threads numBlocks *
      bspChunkSize numBlocks (bspThreads threads numBlocks) :=
    bspChunkSize_mul_ge hT1
  set T := bspThreads threads numBlocks with hT
  set C := bspChunkSize numBlocks T with hC
  refine ⟨hTmin, ?_, ?_⟩
  · intro w hw
    rw [bspRange_eq]
    by_cases h : w * C ≥ numBlocks
    · rw [if_pos h]
      omega
    · rw [if_neg h]
      simp only []
      by_cases h2 : w * C + C > numBlocks
      · rw [if_pos h2]
      · rw [if_neg h2]
        omega
  · intro j hj
    have hwC : j / C * C ≤ j := Nat.div_mul_le_self j C
    have hdm := Nat.div_add_mod j C
    have hmlt : j % C < C := Nat.mod_lt _ (by omega)
    have hjlt : j < (j / C + 1) * C := by
      have h2 : (j / C + 1) * C = C * (j / C) + C := by ring
      omega
    have hwT : j / C < T := by
      rw [Nat.div_lt_iff_lt_mul (show 0 < C by omega)]
      omega
    refine ⟨j / C, ⟨hwT, ?_, ?_⟩, ?_⟩
    · rw [bspRange_eq, if_neg (by omega)]
      exact hwC
    · rw [bspRange_eq, if_neg (by omega)]
      simp only []
      by_cases h2 : j / C * C + C > numBlocks
      · rw [if_pos h2]
        exact hj
      · rw [if_neg h2]
        have h3 : (j / C + 1) * C = j / C * C + C := by ring
        omega
    · intro w hww
      obtain ⟨hw, hws, hwe⟩ := hww
      rw [bspRange_eq] at hws hwe
      by_cases h : w * C ≥ numBlocks
      · rw [if_pos h] at hwe
        exact absurd hwe (by omega)
      · rw [if_neg h] at hws hwe
        simp only [] at hws hwe
        have hlt : j < (w + 1) * C := by
          have h3 : (w + 1) * C = w * C + C := by ring
          by_cases h2 : w * C + C > numBlocks
          · rw [if_pos h2] at hwe
            omega
          · rw [if_neg h2] at hwe
            omega
        exact (Nat.div_eq_of_lt_le hws hlt).symm

/-- C8 witness: the partition at 3 requested threads over 5 blocks,
checked at block index 4. -/
theorem claim_C8_bsp_partition_witness :
    ((bspThreads 3 5 : Int) = min (max 3 1) (5 : Int)) ∧
    (∀ w, w < bspThreads 3 5 →
      (bspRange 5 (bspChunkSize 5 (bspThreads 3 5)) w).2 ≤ 5) ∧
    (∃! w, w < bspThreads 3 5 ∧
      (bspRange 5 (bspChunkSize 5 (bspThreads 3 5)) w).1 ≤ 4 ∧
      4 < (bspRange 5 (bspChunkSize 5 (bspThreads 3 5)) w).2) := by
  obtain ⟨h1, h2, h3⟩ := claim_C8_bsp_partition 3 5 (by omega)
  exact ⟨h1, h2, h3 4 (by omega)⟩

/-- C10: all three decompressors treat a header with `NumBlocks = 0` or
`OriginalSize = 0` as an empty file — they succeed with empty output
without validating that the other field is also zero, so a malformed
container with `OriginalSize > 0` and `NumBlocks = 0` decompresses to an
empty output instead of reporting an error. -/
theorem claim_C10_empty_guard (h : FileHeader) (stream : List Nat) (threads : Int)
    (hguard : h.OriginalSize = 0 ∨ h.NumBlocks = 0) :
    SequentialDecompressBytes h stream = Except.ok [] ∧
    BSPDecompressBytes threads h stream = Except.ok [] ∧
    WorkStealingDecompressBytes threads h stream = Except.ok [] := by
  refine ⟨?_, ?_, ?_⟩
  · unfold SequentialDecompressBytes
    rw [if_pos hguard]
  · unfold BSPDecompressBytes
    rw [if_pos hguard]
  · unfold WorkStealingDecompressBytes
    rw [if_pos hguard]

/-- C10 witness: a malformed header with `OriginalSize = 5` and
`NumBlocks = 0` decompresses to an empty output under all three
drivers. -/
theorem claim_C10_empty_guard_witness :
    SequentialDecompressBytes ⟨[], 5, 1024, 0, []⟩ [1, 2, 3] = Except.ok [] ∧
    BSPDecompressBytes 4 ⟨[], 5, 1024, 0, []⟩ [1, 2, 3] = Except.ok [] ∧
    WorkStealingDecompressBytes 4 ⟨[], 5, 1024, 0, []⟩ [1, 2, 3] = Except.ok [] :=
  claim_C10_empty_guard ⟨[], 5, 1024, 0, []⟩ [1, 2, 3] 4 (Or.inr rfl)

/-- No operation of the deque ever decreases `top`. -/
theorem wsdeque_top_monotone (d : WSDeque) (v : Nat) :
    d.top ≤ (pushBottom d v).top ∧ d.top ≤ (popBottom d).1.top ∧
    d.top ≤ (steal d).1.top := by
  refine ⟨Nat.le_refl _, ?_, ?_⟩
  · unfold popBottom
    simp only []
    split_ifs <;> simp
  · unfold steal
    split_ifs <;> simp

/-- The counter `bottom` is not monotone: popping from a two-element
deque decreases it from 2 to 1, already in a run with no thief at all. -/
theorem wsdeque_bottom_not_monotone :
    ∃ d : WSDeque, (popBottom d).1.bottom < d.bottom :=
  ⟨⟨[7, 8], 1, 0, 2⟩, by decide⟩

end PCZ2
